import Mathlib

set_option maxHeartbeats 1600000

/-!
Shallow embedding of `rust/aura-core/src/aur/dependencies.rs` (the AUR
dependency-resolution core).  Pure functions are translated directly;
the concurrent, mutex-protected traversal is embedded as explicit state
passing (a deterministic sequentialisation of the fan-out), with an event
trace recording every database / network / filesystem interaction so that
"never performs a lookup" style properties are statable.  External
collaborators (ALPM database, faur fetch/search, git clone, `.SRCINFO`
parsing) are oracle fields of an `Env` record, matching their interfaces.
Machine recursion is fuelled: `none` means the fuel bound was reached,
and every theorem quantifies over completed executions.
-/

/-- Mirrors `strip_version`: Rust `str::split_once(['=', '>'])` over the
character list.  `some pre` holds the characters before the first marker;
`none` means no marker occurs. -/
def stripCore : List Char → Option (List Char)
  | [] => none
  | c :: cs => if c = '=' || c = '>' then some [] else (stripCore cs).map (fun l => c :: l)

/-- `strip_version` from the source: keep the left-hand side of the first
`=` or `>`, or return the whole string when neither occurs. -/
def strip_version (s : String) : String :=
  match stripCore s.data with
  | some pre => String.mk pre
  | none => s

/-- One `arch = [...]` vector from the `srcinfo` crate (`ArchVec.vec`). -/
structure ArchVec where
  vec : List String
deriving DecidableEq

/-- A package section of a parsed `.SRCINFO` (the `srcinfo` crate's
`Package`): its name, run dependencies and provides. -/
structure SrcPkg where
  pkgname : String
  depends : List ArchVec
  provides : List ArchVec
deriving DecidableEq

/-- A parsed `.SRCINFO` (the `srcinfo` crate's `Srcinfo`): the base name,
the base make-dependencies, the primary package section and all package
sections. -/
structure Srcinfo where
  pkgbase : String
  makedepends : List ArchVec
  pkg : SrcPkg
  pkgs : List SrcPkg
deriving DecidableEq

/-- An official-repository record as seen through
`alpm.syncdbs().find_satisfier`: the canonical package name and its direct
dependency names. -/
structure OfficialRec where
  name : String
  depends : List String
deriving DecidableEq

/-- A faur metadata record (`crate::faur::Package`): name, package base
and declared provides. -/
structure FaurPackage where
  name : String
  package_base : String
  provides : List String
deriving DecidableEq

/-- `Buildable` from the source: an AUR package name plus the names of its
dependencies. -/
structure Buildable where
  name : String
  deps : List String
deriving DecidableEq

/-- Rust `HashSet<String>` equality: the two collections hold the same
elements. -/
def eqSet (a b : List String) : Bool :=
  a.all (fun x => b.contains x) && b.all (fun x => a.contains x)

/-- The derived `PartialEq` on `Buildable` compares every field: `name`
AND `deps` (the latter with `HashSet` set-equality). -/
def Buildable.beq (x y : Buildable) : Bool :=
  x.name == y.name && eqSet x.deps y.deps

/-- The manual `Hash` impl on `Buildable`: only `name` is fed to the
hasher, so the hash of a `Buildable` is a function of its name alone. -/
def Buildable.hashOf (h : String → Nat) (b : Buildable) : Nat := h b.name

/-- `Resolution` from the source: the shared accumulator of dependency
resolution.  The Rust `HashSet`s are modelled as duplicate-free-by-insert
lists. -/
structure Resolution where
  to_install : List String
  to_build : List Buildable
  satisfied : List String
  provided : List String
deriving DecidableEq

/-- `HashSet<String>::insert`: a no-op when the element is present. -/
def sinsert (x : String) (l : List String) : List String :=
  if x ∈ l then l else x :: l

/-- `HashSet<Buildable>::insert`: dedups by the derived `PartialEq`
(`Buildable.beq`), i.e. by name AND dependency set. -/
def binsert (b : Buildable) (l : List Buildable) : List Buildable :=
  if l.any (fun x => Buildable.beq b x) then l else b :: l

/-- `Resolution::seen`: membership in any of the four sets.  The
`to_install` / `to_build` lookups go through `Borrow<str>`, i.e. compare
the stored name against the query string. -/
def Resolution.seen (r : Resolution) (p : String) : Bool :=
  r.provided.contains p || r.satisfied.contains p || r.to_install.contains p ||
    r.to_build.any (fun b => b.name == p)

/-- `Resolution::default()`: all four sets empty. -/
def emptyRes : Resolution := ⟨[], [], [], []⟩

/-- `Error<E>` from the source (timing/logging-free part).  Collaborator
error payloads are strings. -/
inductive Err where
  | doesntExist (p : String)
  | doesntExistWithParent (parent p : String)
  | faur (e : String)
  | srcinfoErr (e : String)
  | gitErr (e : String)
  | resolutions (es : List Err)

/-- Trace events: one per database / network / filesystem interaction
performed by the resolver. -/
inductive Event where
  | localCheck (p : String)
  | syncCheck (p : String)
  | fetchOne (p : String)
  | searchAll (p : String)
  | cloneRepo (p : String)
  | parseFile (p : String)
deriving DecidableEq

/-- The external collaborators, as oracles.  `localSatisfied` is
`db.pkg(pr).is_ok() || db.pkgs().find_satisfier(pr).is_some()` on the
local database; `syncSatisfier` is `alpm.syncdbs().find_satisfier`;
`hasClone` is `is_aur_package_fast`; `fetchOne` is `faur::info` on a
one-element query; `searchAll` is `faur::search`; `cloneNew` is
`clone_aur_repo` returning the new working-tree path; `parseSrcinfo` is
`Srcinfo::parse_file` at the given working tree. -/
structure Env where
  localSatisfied : String → Bool
  syncSatisfier : String → Option OfficialRec
  hasClone : String → Bool
  fetchOne : String → Except String (List FaurPackage)
  searchAll : String → Except String (List FaurPackage)
  cloneNew : String → Except String String
  parseSrcinfo : String → Except String Srcinfo

/-- The unresolvable-name error: `DoesntExistWithParent(parent, pkg)` when
a parent was supplied, else `DoesntExist(pkg)`. -/
def mkDoesntExist (parent : Option String) (pkg : String) : Err :=
  match parent with
  | some par => Err.doesntExistWithParent par pkg
  | none => Err.doesntExist pkg

/-- Tail of `pull_or_clone` once a package base is known: use an existing
working tree for the base, else clone it fresh. -/
def finishClone (env : Env) (evs : List Event) (base : String) :
    List Event × Except Err String :=
  if env.hasClone base then (evs, Except.ok base)
  else
    match env.cloneNew base with
    | Except.ok path => (evs ++ [Event.cloneRepo base], Except.ok path)
    | Except.error e => (evs ++ [Event.cloneRepo base], Except.error (Err.gitErr e))

/-- The search-fallback filter of `pull_or_clone`: a record declaring the
requested name among its provides. -/
def providesMatch (pkg : String) (p : FaurPackage) : Bool :=
  p.provides.any (fun x => x == pkg)

/-- `pull_or_clone` from the source.  Paths are modelled by their final
component (the directory name under `clone_dir`).  Notes kept from the
Rust: `info.pop()` takes the last record of the reply (assumed to be a
singleton); a *search* failure is swallowed by `.ok()` and treated as an
empty result. -/
def pullOrClone (env : Env) (parent : Option String) (pkg : String) :
    List Event × Except Err String :=
  if env.hasClone pkg then ([], Except.ok pkg)
  else
    match env.fetchOne pkg with
    | Except.error e => ([Event.fetchOne pkg], Except.error (Err.faur e))
    | Except.ok info =>
      match info.getLast? with
      | some p => finishClone env [Event.fetchOne pkg] p.package_base
      | none =>
        let ps := match env.searchAll pkg with
          | Except.error _ => []
          | Except.ok ps => ps
        match ps.find? (providesMatch pkg) with
        | some p =>
          finishClone env [Event.fetchOne pkg, Event.searchAll pkg] p.package_base
        | none =>
          ([Event.fetchOne pkg, Event.searchAll pkg],
            Except.error (mkDoesntExist parent pkg))

/-- Flatten a list of `ArchVec`s, as Rust `flat_map(|av| av.vec)`. -/
def flatVecs (l : List ArchVec) : List String :=
  (l.map (fun av => av.vec)).flatten

/-- The aggregate dependency list gathered in the AUR branch of
`resolve_one`, before `HashSet` collection: base make-dependencies, then
the primary section's run dependencies, then every package section's run
dependencies. -/
def aggDepsList (si : Srcinfo) : List String :=
  flatVecs (si.makedepends ++ si.pkg.depends ++ (si.pkgs.map (fun p => p.depends)).flatten)

/-- The aggregate dependency set (`collect::<HashSet<String>>`), as a
duplicate-free list. -/
def aggDeps (si : Srcinfo) : List String := (aggDepsList si).dedup

/-- The provided-alias names recorded with a `Buildable`: the primary
section's declared provides, then every package section's name. -/
def provList (si : Srcinfo) : List String :=
  flatVecs si.pkg.provides ++ si.pkgs.map (fun p => p.pkgname)

/-- The single locked state update of the AUR branch: insert the
`Buildable` into `to_build` and all alias names into `provided`, in one
step. -/
def recordBuildable (si : Srcinfo) (st : Resolution) : Resolution :=
  ⟨st.to_install,
   binsert ⟨si.pkgbase, aggDeps si⟩ st.to_build,
   st.satisfied,
   (provList si).foldl (fun acc p => sinsert p acc) st.provided⟩

/-- The parallel fan-out with `collect::<Validated<(), Error<E>>>`: run
every branch (state threaded), keep going after failures, and return the
collected list of branch errors (empty iff every branch succeeded).
`none` propagates fuel exhaustion. -/
def fanOut (step : String → Resolution → Option (Resolution × List Event × Option Err)) :
    List String → Resolution → Option (Resolution × List Event × List Err)
  | [], st => some (st, [], [])
  | d :: rest, st =>
    match step d st with
    | none => none
    | some (st1, ev1, oe) =>
      match fanOut step rest st1 with
      | none => none
      | some (st2, ev2, errs) => some (st2, ev1 ++ ev2, oe.toList ++ errs)

/-- `Validated::ok().map_err(Resolutions)`: succeed iff no branch
failed, otherwise wrap all branch errors. -/
def wrapErrs (errs : List Err) : Option Err :=
  if errs.isEmpty then none else some (Err.resolutions errs)

/-- Post-processing of a dependency fan-out inside `resolve_one`: prefix
this node's own events and wrap the collected branch errors. -/
def postBranch (pre : List Event) (r : Option (Resolution × List Event × List Err)) :
    Option (Resolution × List Event × Option Err) :=
  match r with
  | none => none
  | some (st2, evs, errs) => some (st2, pre ++ evs, wrapErrs errs)

/-- `resolve_one` from the source: strip the version, short-circuit on
`seen`, then local-install check, then official-database check, then the
buildable fallback, recursing over discovered dependencies. -/
def resolveOne (env : Env) : Nat → Option String → String → Resolution →
    Option (Resolution × List Event × Option Err)
  | 0, _, _, _ => none
  | fuel + 1, parent, pkgRaw, st =>
    let pkg := strip_version pkgRaw
    if st.seen pkg then some (st, [], none)
    else if env.localSatisfied pkg then
      some (⟨st.to_install, st.to_build, sinsert pkg st.satisfied, st.provided⟩,
            [Event.localCheck pkg], none)
    else
      match env.syncSatisfier pkg with
      | some off =>
        postBranch [Event.localCheck pkg, Event.syncCheck pkg]
          (fanOut (resolveOne env fuel (some off.name)) off.depends
            ⟨sinsert off.name st.to_install, st.to_build, st.satisfied, st.provided⟩)
      | none =>
        match pullOrClone env parent pkg with
        | (pevs, Except.error e) =>
          some (st, [Event.localCheck pkg, Event.syncCheck pkg] ++ pevs, some e)
        | (pevs, Except.ok path) =>
          match env.parseSrcinfo path with
          | Except.error e =>
            some (st,
              [Event.localCheck pkg, Event.syncCheck pkg] ++ pevs ++ [Event.parseFile path],
              some (Err.srcinfoErr e))
          | Except.ok si =>
            postBranch
              ([Event.localCheck pkg, Event.syncCheck pkg] ++ pevs ++ [Event.parseFile path])
              (fanOut (resolveOne env fuel (some si.pkgbase)) (aggDeps si)
                (recordBuildable si st))

/-- `resolve` from the source: fan out over the requested names starting
from the empty accumulator; surface the finished state on success, or the
whole error collection wrapped in `Resolutions`. -/
def resolve (env : Env) (fuel : Nat) (pkgs : List String) :
    Option (Except Err Resolution × List Event) :=
  match fanOut (resolveOne env fuel none) pkgs emptyRes with
  | none => none
  | some (st, evs, errs) =>
    some ((if errs.isEmpty then Except.ok st else Except.error (Err.resolutions errs)), evs)

/-- Per-branch outcomes of a top-level batch: the result (success or
error) of every requested name's branch, in order, with the state
threaded the same way as in `resolve`. -/
def branchResults (env : Env) (fuel : Nat) : List String → Resolution →
    Option (List (Option Err) × Resolution)
  | [], st => some ([], st)
  | p :: rest, st =>
    match resolveOne env fuel none p st with
    | none => none
    | some (st1, _, oe) =>
      match branchResults env fuel rest st1 with
      | none => none
      | some (os, st2) => some (oe :: os, st2)

/-- The distinct error reported by the build orderer on a dependency
cycle. -/
inductive CycleError where
  | cycle
deriving DecidableEq

/-- A package is ready once every dependency of it that is itself in the
build set (`all`) has already been placed. -/
def readyB (all placed : List String) (b : Buildable) : Bool :=
  b.deps.all (fun d => !(all.contains d) || placed.contains d)

/-- Fuelled layered Kahn pass: extract all ready packages as the next
group; a pass that extracts nothing while packages remain is a cycle.
Fuel `bs.length` always suffices since each pass places at least one
package. -/
def kahnF (all : List String) : Nat → List Buildable → List String →
    Except CycleError (List (List String))
  | _, [], _ => Except.ok []
  | 0, _ :: _, _ => Except.error CycleError.cycle
  | fuel + 1, r :: rs, placed =>
    let rdy := (r :: rs).filter (readyB all placed)
    if rdy.isEmpty then Except.error CycleError.cycle
    else
      match kahnF all fuel ((r :: rs).filter (fun b => ! readyB all placed b))
          (placed ++ rdy.map (fun b => b.name)) with
      | Except.error e => Except.error e
      | Except.ok plan => Except.ok (rdy.map (fun b => b.name) :: plan)

/-- Modelled from the spec: the source `build_order` body is an
unimplemented stub (`todo!()`), so the tiered topological sort with cycle
detection is modelled from the specification: repeatedly extract every
not-yet-placed package whose in-set dependencies are all placed; a pass
that can place nothing while packages remain reports a cycle error. -/
def build_order (bs : List Buildable) : Except CycleError (List (List String)) :=
  kahnF (bs.map (fun b => b.name)) bs.length bs []

/-- State inclusion: every element of each accumulator set of `a` is in
the corresponding set of `b`. -/
def Resolution.sub (a b : Resolution) : Prop :=
  (∀ x, x ∈ a.to_install → x ∈ b.to_install) ∧
  (∀ x, x ∈ a.to_build → x ∈ b.to_build) ∧
  (∀ x, x ∈ a.satisfied → x ∈ b.satisfied) ∧
  (∀ x, x ∈ a.provided → x ∈ b.provided)

/-- Concrete environment: nothing local, nothing official, `b` fails to
fetch, every other fetch succeeds with an empty reply. -/
def envTwoFail : Env where
  localSatisfied := fun _ => false
  syncSatisfier := fun _ => none
  hasClone := fun _ => false
  fetchOne := fun s => if s = "b" then Except.error "net" else Except.ok []
  searchAll := fun _ => Except.ok []
  cloneNew := fun _ => Except.error "git down"
  parseSrcinfo := fun _ => Except.error "no srcinfo"

/-- Concrete environment: `a` is both locally installed and present in
the official database (under canonical name `a-official`). -/
def envLocalAndOfficial : Env where
  localSatisfied := fun s => s == "a"
  syncSatisfier := fun s =>
    if s = "a" then some ⟨"a-official", []⟩ else none
  hasClone := fun _ => false
  fetchOne := fun _ => Except.ok []
  searchAll := fun _ => Except.ok []
  cloneNew := fun _ => Except.error "git down"
  parseSrcinfo := fun _ => Except.error "no srcinfo"

/-- Concrete environment: `a` resolves in the official database only via
a provides relationship, to canonical name `canon` with no
dependencies. -/
def envProvidesOfficial : Env where
  localSatisfied := fun _ => false
  syncSatisfier := fun s => if s = "a" then some ⟨"canon", []⟩ else none
  hasClone := fun _ => false
  fetchOne := fun _ => Except.ok []
  searchAll := fun _ => Except.ok []
  cloneNew := fun _ => Except.error "git down"
  parseSrcinfo := fun _ => Except.error "no srcinfo"

/-- Concrete manifest: base `base` with one make-dependency `m1`, primary
section `primary` with run dependency `d1` and provide `pv1`, and one
other section `sub1` with run dependency `d2`. -/
def siSample : Srcinfo :=
  ⟨"base", [⟨["m1"]⟩], ⟨"primary", [⟨["d1"]⟩], [⟨["pv1"]⟩]⟩, [⟨"sub1", [⟨["d2"]⟩], []⟩]⟩

/-- Concrete environment: `a` is an AUR package with an existing working
tree whose manifest is `siSample`; its dependencies are all locally
satisfied. -/
def envAur : Env where
  localSatisfied := fun s => s == "m1" || s == "d1" || s == "d2"
  syncSatisfier := fun _ => none
  hasClone := fun s => s == "a"
  fetchOne := fun _ => Except.ok []
  searchAll := fun _ => Except.ok []
  cloneNew := fun _ => Except.error "git down"
  parseSrcinfo := fun s => if s = "a" then Except.ok siSample else Except.error "no srcinfo"

/-- Concrete environment: the empty name is locally satisfied, nothing
else resolves. -/
def envEmptyName : Env where
  localSatisfied := fun s => s == ""
  syncSatisfier := fun _ => none
  hasClone := fun _ => false
  fetchOne := fun _ => Except.ok []
  searchAll := fun _ => Except.ok []
  cloneNew := fun _ => Except.error "git down"
  parseSrcinfo := fun _ => Except.error "no srcinfo"

/-- Concrete faur record for the exact-hit path of `pull_or_clone`. -/
def faurExact : FaurPackage := ⟨"a", "a-base", []⟩

/-- Concrete faur records for the search-fallback path: the first record
does not provide `a`, the second does, the third also does. -/
def faurMiss : FaurPackage := ⟨"other", "other-base", ["not-a"]⟩

/-- Second search record: provides `a`. -/
def faurHit : FaurPackage := ⟨"hit", "hit-base", ["x", "a"]⟩

/-- Third search record: also provides `a`, but comes after `faurHit`. -/
def faurLate : FaurPackage := ⟨"late", "late-base", ["a"]⟩

/-- Concrete environment for `pull_or_clone`: no working trees, exact
info on `a` is empty, search on `a` returns miss/hit/late, cloning
succeeds. -/
def envSearch : Env where
  localSatisfied := fun _ => false
  syncSatisfier := fun _ => none
  hasClone := fun _ => false
  fetchOne := fun _ => Except.ok []
  searchAll := fun s => if s = "a" then Except.ok [faurMiss, faurHit, faurLate] else Except.ok []
  cloneNew := fun s => Except.ok s
  parseSrcinfo := fun _ => Except.error "no srcinfo"

/-- Concrete environment for `pull_or_clone`: exact info on `a` yields
`faurExact`, cloning succeeds. -/
def envExact : Env where
  localSatisfied := fun _ => false
  syncSatisfier := fun _ => none
  hasClone := fun _ => false
  fetchOne := fun s => if s = "a" then Except.ok [faurExact] else Except.ok []
  searchAll := fun _ => Except.ok []
  cloneNew := fun s => Except.ok s
  parseSrcinfo := fun _ => Except.error "no srcinfo"

/-! ### Basic facts about the set-insert operations -/

theorem sinsert_mem_self (x : String) (l : List String) : x ∈ sinsert x l := by
  unfold sinsert
  split
  · assumption
  · exact List.mem_cons_self x l

theorem mem_sinsert_of_mem (x : String) {y : String} {l : List String} (h : y ∈ l) :
    y ∈ sinsert x l := by
  unfold sinsert
  split
  · exact h
  · exact List.mem_cons_of_mem x h

theorem sinsert_eq_of_mem {x : String} {l : List String} (h : x ∈ l) : sinsert x l = l := by
  unfold sinsert
  simp [h]

theorem mem_of_mem_sinsert {x y : String} {l : List String} (h : y ∈ sinsert x l) :
    y = x ∨ y ∈ l := by
  unfold sinsert at h
  split at h
  · exact Or.inr h
  · rcases List.mem_cons.mp h with h1 | h1
    · exact Or.inl h1
    · exact Or.inr h1

theorem beq_refl_buildable (b : Buildable) : Buildable.beq b b = true := by
  unfold Buildable.beq eqSet
  simp [List.all_eq_true]

theorem mem_binsert_of_mem {b y : Buildable} {l : List Buildable} (h : y ∈ l) :
    y ∈ binsert b l := by
  unfold binsert
  split
  · exact h
  · exact List.mem_cons_of_mem b h

theorem binsert_beq_exists (b : Buildable) (l : List Buildable) :
    ∃ x, x ∈ binsert b l ∧ Buildable.beq b x = true := by
  unfold binsert
  split
  · rename_i h
    rcases List.any_eq_true.mp h with ⟨x, hx, hbx⟩
    exact ⟨x, hx, hbx⟩
  · exact ⟨b, List.mem_cons_self b l, beq_refl_buildable b⟩

theorem binsert_eq_of_any {b : Buildable} {l : List Buildable}
    (h : l.any (fun x => Buildable.beq b x) = true) : binsert b l = l := by
  unfold binsert
  simp [h]

theorem mem_foldl_sinsert_of_mem {l : List String} :
    ∀ {acc : List String} {y : String}, y ∈ acc →
      y ∈ l.foldl (fun a p => sinsert p a) acc := by
  induction l with
  | nil => intro acc y h; simpa using h
  | cons p rest ih =>
    intro acc y h
    simpa using ih (mem_sinsert_of_mem p h)

theorem mem_foldl_sinsert_self {l : List String} :
    ∀ {acc : List String} {p : String}, p ∈ l →
      p ∈ l.foldl (fun a q => sinsert q a) acc := by
  induction l with
  | nil => intro acc p h; simp at h
  | cons q rest ih =>
    intro acc p h
    rcases List.mem_cons.mp h with h1 | h1
    · subst h1
      simpa using mem_foldl_sinsert_of_mem (sinsert_mem_self p acc)
    · simpa using ih h1

theorem foldl_sinsert_eq {l : List String} :
    ∀ {acc : List String}, (∀ p, p ∈ l → p ∈ acc) →
      l.foldl (fun a q => sinsert q a) acc = acc := by
  induction l with
  | nil => intro acc _; rfl
  | cons q rest ih =>
    intro acc h
    have hq : q ∈ acc := h q (List.mem_cons_self q rest)
    have : sinsert q acc = acc := sinsert_eq_of_mem hq
    simp only [List.foldl_cons, this]
    exact ih (fun p hp => h p (List.mem_cons_of_mem q hp))

/-! ### The state-inclusion order -/

theorem sub_refl (a : Resolution) : a.sub a :=
  ⟨fun _ h => h, fun _ h => h, fun _ h => h, fun _ h => h⟩

theorem sub_trans {a b c : Resolution} (h1 : a.sub b) (h2 : b.sub c) : a.sub c :=
  ⟨fun x h => h2.1 x (h1.1 x h),
   fun x h => h2.2.1 x (h1.2.1 x h),
   fun x h => h2.2.2.1 x (h1.2.2.1 x h),
   fun x h => h2.2.2.2 x (h1.2.2.2 x h)⟩

theorem seen_mono {a b : Resolution} {p : String} (h : a.seen p = true) (hs : a.sub b) :
    b.seen p = true := by
  unfold Resolution.seen at h ⊢
  simp only [Bool.or_eq_true, List.elem_iff, List.any_eq_true, beq_iff_eq] at h ⊢
  rcases h with ((h1 | h1) | h1) | ⟨x, hx, hn⟩
  · exact Or.inl (Or.inl (Or.inl (hs.2.2.2 p h1)))
  · exact Or.inl (Or.inl (Or.inr (hs.2.2.1 p h1)))
  · exact Or.inl (Or.inr (hs.1 p h1))
  · exact Or.inr ⟨x, hs.2.1 x hx, hn⟩

theorem sub_satInsert (st : Resolution) (p : String) :
    st.sub ⟨st.to_install, st.to_build, sinsert p st.satisfied, st.provided⟩ :=
  ⟨fun _ h => h, fun _ h => h, fun _ h => mem_sinsert_of_mem p h, fun _ h => h⟩

theorem sub_offInsert (st : Resolution) (n : String) :
    st.sub ⟨sinsert n st.to_install, st.to_build, st.satisfied, st.provided⟩ :=
  ⟨fun _ h => mem_sinsert_of_mem n h, fun _ h => h, fun _ h => h, fun _ h => h⟩

theorem sub_recordBuildable (si : Srcinfo) (st : Resolution) :
    st.sub (recordBuildable si st) :=
  ⟨fun _ h => h, fun _ h => mem_binsert_of_mem h, fun _ h => h,
   fun _ h => mem_foldl_sinsert_of_mem h⟩

/-! ### Branch characterisations of `resolveOne` and `fanOut` -/

theorem postBranch_some {pre : List Event} {r : Option (Resolution × List Event × List Err)}
    {out : Resolution × List Event × Option Err} (h : postBranch pre r = some out) :
    ∃ st2 evs errs, r = some (st2, evs, errs) ∧ out = (st2, pre ++ evs, wrapErrs errs) := by
  cases r with
  | none => exact absurd h (by simp [postBranch])
  | some x =>
    obtain ⟨st2, evs, errs⟩ := x
    simp only [postBranch] at h
    cases h
    exact ⟨st2, evs, errs, rfl, rfl⟩

theorem fanOut_nil (step : String → Resolution → Option (Resolution × List Event × Option Err))
    (st : Resolution) : fanOut step [] st = some (st, [], []) := rfl

theorem fanOut_cons_some {step : String → Resolution → Option (Resolution × List Event × Option Err)}
    {d : String} {rest : List String} {st : Resolution}
    {out : Resolution × List Event × List Err}
    (h : fanOut step (d :: rest) st = some out) :
    ∃ st1 ev1 oe st2 ev2 errs,
      step d st = some (st1, ev1, oe) ∧ fanOut step rest st1 = some (st2, ev2, errs) ∧
      out = (st2, ev1 ++ ev2, oe.toList ++ errs) := by
  rw [show fanOut step (d :: rest) st =
      (match step d st with
       | none => none
       | some (st1, ev1, oe) =>
         match fanOut step rest st1 with
         | none => none
         | some (st2, ev2, errs) => some (st2, ev1 ++ ev2, oe.toList ++ errs)) from rfl] at h
  cases h1 : step d st with
  | none => simp [h1] at h
  | some trip =>
    obtain ⟨st1, ev1, oe⟩ := trip
    simp only [h1] at h
    cases h2 : fanOut step rest st1 with
    | none => simp [h2] at h
    | some trip2 =>
      obtain ⟨st2, ev2, errs⟩ := trip2
      simp only [h2, Option.some.injEq] at h
      exact ⟨st1, ev1, oe, st2, ev2, errs, rfl, h2, h.symm⟩

theorem fanOut_mono
    {step : String → Resolution → Option (Resolution × List Event × Option Err)}
    (hstep : ∀ d s o, step d s = some o → s.sub o.1) :
    ∀ (l : List String) (st : Resolution) (out : Resolution × List Event × List Err),
      fanOut step l st = some out → st.sub out.1 := by
  intro l
  induction l with
  | nil =>
    intro st out h
    rw [fanOut_nil] at h
    cases h
    exact sub_refl st
  | cons d rest ih =>
    intro st out h
    rcases fanOut_cons_some h with ⟨st1, ev1, oe, st2, ev2, errs, h1, h2, hout⟩
    subst hout
    exact sub_trans (hstep d st _ h1) (ih st1 (st2, ev2, errs) h2)

theorem resolveOne_zero (env : Env) (parent : Option String) (pkgRaw : String)
    (st : Resolution) : resolveOne env 0 parent pkgRaw st = none := rfl

theorem resolveOne_seen {env : Env} {fuel : Nat} {parent : Option String} {pkgRaw : String}
    {st : Resolution} (h : st.seen (strip_version pkgRaw) = true) :
    resolveOne env (fuel + 1) parent pkgRaw st = some (st, [], none) := by
  rw [resolveOne]
  simp only [h]
  rfl

theorem resolveOne_local {env : Env} {fuel : Nat} {parent : Option String} {pkgRaw : String}
    {st : Resolution} {p : String} (hp : strip_version pkgRaw = p)
    (hs : st.seen p = false) (hl : env.localSatisfied p = true) :
    resolveOne env (fuel + 1) parent pkgRaw st =
      some (⟨st.to_install, st.to_build, sinsert p st.satisfied, st.provided⟩,
        [Event.localCheck p], none) := by
  rw [resolveOne]
  simp only [hp, hs, hl]
  rfl

theorem resolveOne_official {env : Env} {fuel : Nat} {parent : Option String} {pkgRaw : String}
    {st : Resolution} {p : String} {off : OfficialRec} (hp : strip_version pkgRaw = p)
    (hs : st.seen p = false) (hl : env.localSatisfied p = false)
    (ho : env.syncSatisfier p = some off) :
    resolveOne env (fuel + 1) parent pkgRaw st =
      postBranch [Event.localCheck p, Event.syncCheck p]
        (fanOut (resolveOne env fuel (some off.name)) off.depends
          ⟨sinsert off.name st.to_install, st.to_build, st.satisfied, st.provided⟩) := by
  rw [resolveOne]
  simp only [hp, hs, hl, ho]
  rfl

theorem resolveOne_aurPullErr {env : Env} {fuel : Nat} {parent : Option String}
    {pkgRaw : String} {st : Resolution} {p : String} {pevs : List Event} {e : Err}
    (hp : strip_version pkgRaw = p) (hs : st.seen p = false)
    (hl : env.localSatisfied p = false) (ho : env.syncSatisfier p = none)
    (hpc : pullOrClone env parent p = (pevs, Except.error e)) :
    resolveOne env (fuel + 1) parent pkgRaw st =
      some (st, [Event.localCheck p, Event.syncCheck p] ++ pevs, some e) := by
  rw [resolveOne]
  simp only [hp, hs, hl, ho, hpc]
  rfl

theorem resolveOne_aurParseErr {env : Env} {fuel : Nat} {parent : Option String}
    {pkgRaw : String} {st : Resolution} {p path : String} {pevs : List Event} {e : String}
    (hp : strip_version pkgRaw = p) (hs : st.seen p = false)
    (hl : env.localSatisfied p = false) (ho : env.syncSatisfier p = none)
    (hpc : pullOrClone env parent p = (pevs, Except.ok path))
    (hsi : env.parseSrcinfo path = Except.error e) :
    resolveOne env (fuel + 1) parent pkgRaw st =
      some (st, [Event.localCheck p, Event.syncCheck p] ++ pevs ++ [Event.parseFile path],
        some (Err.srcinfoErr e)) := by
  rw [resolveOne]
  simp only [hp, hs, hl, ho, hpc, hsi]
  rfl

theorem resolveOne_aurOk {env : Env} {fuel : Nat} {parent : Option String}
    {pkgRaw : String} {st : Resolution} {p path : String} {pevs : List Event} {si : Srcinfo}
    (hp : strip_version pkgRaw = p) (hs : st.seen p = false)
    (hl : env.localSatisfied p = false) (ho : env.syncSatisfier p = none)
    (hpc : pullOrClone env parent p = (pevs, Except.ok path))
    (hsi : env.parseSrcinfo path = Except.ok si) :
    resolveOne env (fuel + 1) parent pkgRaw st =
      postBranch
        ([Event.localCheck p, Event.syncCheck p] ++ pevs ++ [Event.parseFile path])
        (fanOut (resolveOne env fuel (some si.pkgbase)) (aggDeps si)
          (recordBuildable si st)) := by
  rw [resolveOne]
  simp only [hp, hs, hl, ho, hpc, hsi]
  rfl

theorem resolveOne_mono (env : Env) :
    ∀ (fuel : Nat) (parent : Option String) (pkgRaw : String) (st : Resolution)
      (out : Resolution × List Event × Option Err),
      resolveOne env fuel parent pkgRaw st = some out → st.sub out.1 := by
  intro fuel
  induction fuel with
  | zero =>
    intro parent pkgRaw st out h
    rw [resolveOne_zero] at h
    exact absurd h (by simp)
  | succ n ih =>
    intro parent pkgRaw st out h
    cases hs : st.seen (strip_version pkgRaw) with
    | true =>
      rw [resolveOne_seen hs] at h
      simp only [Option.some.injEq] at h
      subst h
      exact sub_refl st
    | false =>
      cases hl : env.localSatisfied (strip_version pkgRaw) with
      | true =>
        rw [resolveOne_local rfl hs hl] at h
        simp only [Option.some.injEq] at h
        subst h
        exact sub_satInsert st _
      | false =>
        cases ho : env.syncSatisfier (strip_version pkgRaw) with
        | some off =>
          rw [resolveOne_official rfl hs hl ho] at h
          rcases postBranch_some h with ⟨st2, evs, errs, hfo, hout⟩
          subst hout
          exact sub_trans (sub_offInsert st off.name)
            (fanOut_mono (fun d s o hh => ih (some off.name) d s o hh)
              off.depends _ (st2, evs, errs) hfo)
        | none =>
          rcases hpc : pullOrClone env parent (strip_version pkgRaw) with ⟨pevs, pres⟩
          cases pres with
          | error e =>
            rw [resolveOne_aurPullErr rfl hs hl ho hpc] at h
            simp only [Option.some.injEq] at h
            subst h
            exact sub_refl st
          | ok path =>
            cases hsi : env.parseSrcinfo path with
            | error e =>
              rw [resolveOne_aurParseErr rfl hs hl ho hpc hsi] at h
              simp only [Option.some.injEq] at h
              subst h
              exact sub_refl st
            | ok si =>
              rw [resolveOne_aurOk rfl hs hl ho hpc hsi] at h
              rcases postBranch_some h with ⟨st2, evs, errs, hfo, hout⟩
              subst hout
              exact sub_trans (sub_recordBuildable si st)
                (fanOut_mono (fun d s o hh => ih (some si.pkgbase) d s o hh)
                  (aggDeps si) _ (st2, evs, errs) hfo)

theorem seen_of_mem_satisfied {r : Resolution} {p : String} (h : p ∈ r.satisfied) :
    r.seen p = true := by
  unfold Resolution.seen
  simp [List.elem_iff, h]

theorem seen_of_mem_provided {r : Resolution} {p : String} (h : p ∈ r.provided) :
    r.seen p = true := by
  unfold Resolution.seen
  simp [List.elem_iff, h]

theorem seen_of_mem_to_install {r : Resolution} {p : String} (h : p ∈ r.to_install) :
    r.seen p = true := by
  unfold Resolution.seen
  simp [List.elem_iff, h]

theorem seen_false_parts {r : Resolution} {p : String} (h : r.seen p = false) :
    p ∉ r.provided ∧ p ∉ r.satisfied ∧ p ∉ r.to_install ∧
      ∀ b, b ∈ r.to_build → b.name ≠ p := by
  unfold Resolution.seen at h
  simp only [Bool.or_eq_false_iff] at h
  obtain ⟨⟨⟨h1, h2⟩, h3⟩, h4⟩ := h
  simp only [List.any_eq_false] at h4
  refine ⟨?_, ?_, ?_, ?_⟩
  · intro hm
    have hc : r.provided.contains p = true := List.elem_iff.mpr hm
    rw [h1] at hc
    exact absurd hc (by simp)
  · intro hm
    have hc : r.satisfied.contains p = true := List.elem_iff.mpr hm
    rw [h2] at hc
    exact absurd hc (by simp)
  · intro hm
    have hc : r.to_install.contains p = true := List.elem_iff.mpr hm
    rw [h3] at hc
    exact absurd hc (by simp)
  · intro b hb heq
    have := h4 b hb
    simp [heq] at this

theorem wrapErrs_nil : wrapErrs [] = none := rfl

theorem wrapErrs_eq_none {errs : List Err} (h : wrapErrs errs = none) : errs = [] := by
  unfold wrapErrs at h
  split at h
  · rename_i he
    exact List.isEmpty_iff.mp he
  · exact absurd h (by simp)

theorem res_eta (t : Resolution) :
    (⟨t.to_install, t.to_build, t.satisfied, t.provided⟩ : Resolution) = t := rfl

theorem fanOut_cons_build
    {step : String → Resolution → Option (Resolution × List Event × Option Err)}
    {d : String} {rest : List String} {st st1 st2 : Resolution} {ev1 ev2 : List Event}
    {oe : Option Err} {errs : List Err}
    (h1 : step d st = some (st1, ev1, oe))
    (h2 : fanOut step rest st1 = some (st2, ev2, errs)) :
    fanOut step (d :: rest) st = some (st2, ev1 ++ ev2, oe.toList ++ errs) := by
  simp only [fanOut, h1, h2]

theorem fanOut_stable
    {step : String → Resolution → Option (Resolution × List Event × Option Err)}
    (hmono : ∀ d s o, step d s = some o → s.sub o.1)
    (hstab : ∀ d s s1 evs, step d s = some (s1, evs, none) →
      ∀ t, s1.sub t → ∃ evs2, step d t = some (t, evs2, none)) :
    ∀ (l : List String) (st stF : Resolution) (evs : List Event),
      fanOut step l st = some (stF, evs, []) →
      ∀ t, stF.sub t → ∃ evs2, fanOut step l t = some (t, evs2, []) := by
  intro l
  induction l with
  | nil =>
    intro st stF evs h t ht
    exact ⟨[], rfl⟩
  | cons d rest ih =>
    intro st stF evs h t ht
    rcases fanOut_cons_some h with ⟨st1, ev1, oe, st2, ev2, errs, h1, h2, hout⟩
    simp only [Prod.mk.injEq] at hout
    obtain ⟨hstF, hevs, herrs⟩ := hout
    have hoe : oe = none := by
      cases oe with
      | none => rfl
      | some e => simp at herrs
    subst hoe
    have herrs2 : errs = [] := by simpa using herrs.symm
    rw [herrs2, ← hstF] at h2
    have hst1sub : st1.sub stF :=
      fanOut_mono hmono rest st1 (stF, ev2, []) h2
    have hst1t : st1.sub t := sub_trans hst1sub ht
    obtain ⟨evsa, hstep2⟩ := hstab d st st1 ev1 h1 t hst1t
    obtain ⟨evsb, hrest2⟩ := ih st1 stF ev2 h2 t ht
    refine ⟨evsa ++ evsb, ?_⟩
    have := fanOut_cons_build hstep2 hrest2
    simpa using this

theorem resolveOne_stable (env : Env) :
    ∀ (fuel : Nat) (parent : Option String) (pkgRaw : String) (st st1 : Resolution)
      (evs : List Event),
      resolveOne env fuel parent pkgRaw st = some (st1, evs, none) →
      ∀ t, st1.sub t → ∃ evs2, resolveOne env fuel parent pkgRaw t = some (t, evs2, none) := by
  intro fuel
  induction fuel with
  | zero =>
    intro parent pkgRaw st st1 evs h
    rw [resolveOne_zero] at h
    exact absurd h (by simp)
  | succ n ih =>
    intro parent pkgRaw st st1 evs h t ht
    by_cases hts : t.seen (strip_version pkgRaw) = true
    · exact ⟨[], resolveOne_seen hts⟩
    · have hts' : t.seen (strip_version pkgRaw) = false := by
        cases hq : t.seen (strip_version pkgRaw)
        · rfl
        · exact absurd hq hts
      cases hs : st.seen (strip_version pkgRaw) with
      | true =>
        rw [resolveOne_seen hs] at h
        simp only [Option.some.injEq, Prod.mk.injEq] at h
        exact absurd (seen_mono hs (h.1 ▸ ht)) hts
      | false =>
        cases hl : env.localSatisfied (strip_version pkgRaw) with
        | true =>
          rw [resolveOne_local rfl hs hl] at h
          simp only [Option.some.injEq, Prod.mk.injEq] at h
          have hmem : strip_version pkgRaw ∈ st1.satisfied := by
            rw [← h.1]
            exact sinsert_mem_self _ _
          exact absurd (seen_of_mem_satisfied (ht.2.2.1 _ hmem)) hts
        | false =>
          cases ho : env.syncSatisfier (strip_version pkgRaw) with
          | some off =>
            rw [resolveOne_official rfl hs hl ho] at h
            rcases postBranch_some h with ⟨st2, evsF, errs, hfo, hout⟩
            simp only [Prod.mk.injEq] at hout
            obtain ⟨hst1, hevs, herr⟩ := hout
            have herrs : errs = [] := wrapErrs_eq_none herr.symm
            rw [herrs, ← hst1] at hfo
            have hsub1 : (⟨sinsert off.name st.to_install, st.to_build, st.satisfied,
                st.provided⟩ : Resolution).sub st1 :=
              fanOut_mono (fun d s o hh => resolveOne_mono env n (some off.name) d s o hh)
                off.depends _ (st1, evsF, []) hfo
            have hofft : off.name ∈ t.to_install :=
              ht.1 _ (hsub1.1 _ (sinsert_mem_self off.name st.to_install))
            have htIns : (⟨sinsert off.name t.to_install, t.to_build, t.satisfied,
                t.provided⟩ : Resolution) = t := by
              rw [sinsert_eq_of_mem hofft]
            obtain ⟨evs2, hfo2⟩ :=
              fanOut_stable
                (fun d s o hh => resolveOne_mono env n (some off.name) d s o hh)
                (fun d s s1 evsx hh tx htx => ih (some off.name) d s s1 evsx hh tx htx)
                off.depends _ st1 evsF hfo t ht
            refine ⟨[Event.localCheck (strip_version pkgRaw),
              Event.syncCheck (strip_version pkgRaw)] ++ evs2, ?_⟩
            rw [resolveOne_official rfl hts' hl ho, htIns, hfo2]
            rfl
          | none =>
            rcases hpc : pullOrClone env parent (strip_version pkgRaw) with ⟨pevs, pres⟩
            cases pres with
            | error e =>
              rw [resolveOne_aurPullErr rfl hs hl ho hpc] at h
              simp at h
            | ok path =>
              cases hsi : env.parseSrcinfo path with
              | error e =>
                rw [resolveOne_aurParseErr rfl hs hl ho hpc hsi] at h
                simp at h
              | ok si =>
                rw [resolveOne_aurOk rfl hs hl ho hpc hsi] at h
                rcases postBranch_some h with ⟨st2, evsF, errs, hfo, hout⟩
                simp only [Prod.mk.injEq] at hout
                obtain ⟨hst1, hevs, herr⟩ := hout
                have herrs : errs = [] := wrapErrs_eq_none herr.symm
                rw [herrs, ← hst1] at hfo
                have hsub1 : (recordBuildable si st).sub st1 :=
                  fanOut_mono (fun d s o hh => resolveOne_mono env n (some si.pkgbase) d s o hh)
                    (aggDeps si) _ (st1, evsF, []) hfo
                have hrecT : recordBuildable si t = t := by
                  unfold recordBuildable
                  obtain ⟨x, hx, hbx⟩ :=
                    binsert_beq_exists (⟨si.pkgbase, aggDeps si⟩ : Buildable) st.to_build
                  have hxt : x ∈ t.to_build := ht.2.1 _ (hsub1.2.1 _ hx)
                  have hb : binsert (⟨si.pkgbase, aggDeps si⟩ : Buildable) t.to_build =
                      t.to_build :=
                    binsert_eq_of_any (List.any_eq_true.mpr ⟨x, hxt, hbx⟩)
                  have hp : (provList si).foldl (fun acc p => sinsert p acc) t.provided =
                      t.provided := by
                    apply foldl_sinsert_eq
                    intro q hq
                    exact ht.2.2.2 _ (hsub1.2.2.2 _ (mem_foldl_sinsert_self hq))
                  rw [hb, hp]
                obtain ⟨evs2, hfo2⟩ :=
                  fanOut_stable
                    (fun d s o hh => resolveOne_mono env n (some si.pkgbase) d s o hh)
                    (fun d s s1 evsx hh tx htx => ih (some si.pkgbase) d s s1 evsx hh tx htx)
                    (aggDeps si) _ st1 evsF hfo t ht
                refine ⟨[Event.localCheck (strip_version pkgRaw),
                  Event.syncCheck (strip_version pkgRaw)] ++ pevs ++ [Event.parseFile path]
                    ++ evs2, ?_⟩
                rw [resolveOne_aurOk rfl hts' hl ho hpc hsi, hrecT, hfo2]
                rfl

theorem fanOut_branchResults (env : Env) (fuel : Nat) :
    ∀ (pkgs : List String) (st stF : Resolution) (evs : List Event) (errs : List Err),
      fanOut (resolveOne env fuel none) pkgs st = some (stF, evs, errs) →
      ∃ os, branchResults env fuel pkgs st = some (os, stF) ∧ errs = os.reduceOption := by
  intro pkgs
  induction pkgs with
  | nil =>
    intro st stF evs errs h
    rw [fanOut_nil] at h
    simp only [Option.some.injEq, Prod.mk.injEq] at h
    obtain ⟨h1, _, h3⟩ := h
    subst h1
    refine ⟨[], rfl, by simp [← h3]⟩
  | cons d rest ih =>
    intro st stF evs errs h
    rcases fanOut_cons_some h with ⟨st1, ev1, oe, st2, ev2, errs2, h1, h2, hout⟩
    simp only [Prod.mk.injEq] at hout
    obtain ⟨hstF, hevs, herrs⟩ := hout
    obtain ⟨os, hbr, hos⟩ := ih st1 st2 ev2 errs2 h2
    refine ⟨oe :: os, ?_, ?_⟩
    · show branchResults env fuel (d :: rest) st = some (oe :: os, stF)
      unfold branchResults
      rw [h1]
      simp only [hbr, hstF]
    · rw [herrs, hos]
      cases oe with
      | none => simp [List.reduceOption]
      | some e => simp [List.reduceOption]

theorem reduceOption_nil_all_none {os : List (Option Err)} (h : os.reduceOption = []) :
    ∀ o, o ∈ os → o = none := by
  induction os with
  | nil => intro o ho; simp at ho
  | cons a rest ih =>
    intro o ho
    cases a with
    | none =>
      rcases List.mem_cons.mp ho with h1 | h1
      · exact h1
      · exact ih (by simpa [List.reduceOption] using h) o h1
    | some e => simp [List.reduceOption] at h

/-- C1: `resolve` returns either a finished `Resolution` with zero errors
(every branch succeeded) or a non-empty collection containing exactly the
error of every failed branch, in branch order; a state is never returned
alongside errors. -/
theorem c1_resolve_error_collection :
    ∀ (env : Env) (fuel : Nat) (pkgs : List String) (r : Except Err Resolution)
      (evs : List Event),
      resolve env fuel pkgs = some (r, evs) →
      ∃ os stF, branchResults env fuel pkgs emptyRes = some (os, stF) ∧
        (((∀ o, o ∈ os → o = none) ∧ r = Except.ok stF) ∨
          (os.reduceOption ≠ [] ∧ r = Except.error (Err.resolutions os.reduceOption))) := by
  intro env fuel pkgs r evs h
  unfold resolve at h
  cases hfo : fanOut (resolveOne env fuel none) pkgs emptyRes with
  | none => rw [hfo] at h; simp at h
  | some trip =>
    obtain ⟨stF, evsF, errs⟩ := trip
    rw [hfo] at h
    simp only [Option.some.injEq, Prod.mk.injEq] at h
    obtain ⟨hr, hevs⟩ := h
    obtain ⟨os, hbr, hos⟩ := fanOut_branchResults env fuel pkgs emptyRes stF evsF errs hfo
    refine ⟨os, stF, hbr, ?_⟩
    by_cases he : errs.isEmpty
    · left
      have : errs = [] := List.isEmpty_iff.mp he
      refine ⟨reduceOption_nil_all_none (by rw [← hos, this]), ?_⟩
      rw [← hr]
      simp [he]
    · right
      have herrs : errs ≠ [] := fun hx => he (by simp [hx])
      refine ⟨by rw [← hos]; exact herrs, ?_⟩
      rw [← hr, ← hos]
      simp [he]

/-- C1 witness: a batch where branch `a` is unresolvable and branch `b`
hits a fetch error yields the error collection with exactly both errors,
in order. -/
theorem c1_witness :
    (resolve envTwoFail 5 ["a", "b"] =
      some (Except.error (Err.resolutions [Err.doesntExist "a", Err.faur "net"]),
        [Event.localCheck "a", Event.syncCheck "a", Event.fetchOne "a", Event.searchAll "a",
         Event.localCheck "b", Event.syncCheck "b", Event.fetchOne "b"])) ∧
    (∃ os stF, branchResults envTwoFail 5 ["a", "b"] emptyRes = some (os, stF) ∧
      (((∀ o, o ∈ os → o = none) ∧
          (Except.error (Err.resolutions [Err.doesntExist "a", Err.faur "net"]) :
            Except Err Resolution) = Except.ok stF) ∨
        (os.reduceOption ≠ [] ∧
          (Except.error (Err.resolutions [Err.doesntExist "a", Err.faur "net"]) :
            Except Err Resolution) = Except.error (Err.resolutions os.reduceOption)))) :=
  ⟨rfl, c1_resolve_error_collection envTwoFail 5 ["a", "b"] _ _ rfl⟩

theorem finishClone_events (env : Env) (evs : List Event) (base : String) :
    ∀ ev, ev ∈ (finishClone env evs base).1 → ev ∈ evs ∨ ∃ b, ev = Event.cloneRepo b := by
  intro ev hev
  unfold finishClone at hev
  cases hc : env.hasClone base with
  | true =>
    simp only [hc, if_true] at hev
    exact Or.inl hev
  | false =>
    simp only [hc] at hev
    cases hcl : env.cloneNew base with
    | ok path =>
      simp only [hcl] at hev
      simp at hev
      rcases hev with h1 | h1
      · exact Or.inl h1
      · exact Or.inr ⟨base, h1⟩
    | error e =>
      simp only [hcl] at hev
      simp at hev
      rcases hev with h1 | h1
      · exact Or.inl h1
      · exact Or.inr ⟨base, h1⟩

theorem pullOrClone_events (env : Env) (parent : Option String) (p : String) :
    ∀ ev, ev ∈ (pullOrClone env parent p).1 →
      ev = Event.fetchOne p ∨ ev = Event.searchAll p ∨ ∃ b, ev = Event.cloneRepo b := by
  intro ev hev
  unfold pullOrClone at hev
  cases hc : env.hasClone p with
  | true => simp [hc] at hev
  | false =>
    simp only [hc] at hev
    cases hf : env.fetchOne p with
    | error e =>
      simp only [hf] at hev
      simp at hev
      exact Or.inl hev
    | ok info =>
      simp only [hf] at hev
      cases hl : info.getLast? with
      | some q =>
        simp only [hl] at hev
        have hev2 : ev ∈ (finishClone env [Event.fetchOne p] q.package_base).1 := by
          simpa using hev
        rcases finishClone_events env _ _ ev hev2 with h1 | h1
        · simp at h1
          exact Or.inl h1
        · exact Or.inr (Or.inr h1)
      | none =>
        simp only [hl] at hev
        cases hfind : (match env.searchAll p with
            | Except.error _ => []
            | Except.ok ps => ps).find? (providesMatch p) with
        | some q =>
          simp only [hfind] at hev
          have hev2 : ev ∈
              (finishClone env [Event.fetchOne p, Event.searchAll p] q.package_base).1 := by
            simpa using hev
          rcases finishClone_events env _ _ ev hev2 with h1 | h1
          · simp at h1
            rcases h1 with h1 | h1
            · exact Or.inl h1
            · exact Or.inr (Or.inl h1)
          · exact Or.inr (Or.inr h1)
        | none =>
          simp only [hfind] at hev
          simp at hev
          rcases hev with h1 | h1
          · exact Or.inl h1
          · exact Or.inr (Or.inl h1)

theorem fanOut_events
    {step : String → Resolution → Option (Resolution × List Event × Option Err)}
    (P : Event → Prop)
    (hstep : ∀ d s o, step d s = some o → ∀ ev, ev ∈ o.2.1 → P ev) :
    ∀ (l : List String) (st : Resolution) (out : Resolution × List Event × List Err),
      fanOut step l st = some out → ∀ ev, ev ∈ out.2.1 → P ev := by
  intro l
  induction l with
  | nil =>
    intro st out h ev hev
    rw [fanOut_nil] at h
    simp only [Option.some.injEq] at h
    rw [← h] at hev
    simp at hev
  | cons d rest ih =>
    intro st out h ev hev
    rcases fanOut_cons_some h with ⟨st1, ev1, oe, st2, ev2, errs, h1, h2, hout⟩
    rw [hout] at hev
    rcases List.mem_append.mp hev with h3 | h3
    · exact hstep d st _ h1 ev h3
    · exact ih st1 (st2, ev2, errs) h2 ev h3

theorem resolveOne_noFetch (env : Env) (q : String)
    (hq : env.localSatisfied q = true ∨ env.syncSatisfier q ≠ none) :
    ∀ (fuel : Nat) (parent : Option String) (pkgRaw : String) (st : Resolution)
      (out : Resolution × List Event × Option Err),
      resolveOne env fuel parent pkgRaw st = some out →
      ∀ ev, ev ∈ out.2.1 → ev ≠ Event.fetchOne q ∧ ev ≠ Event.searchAll q := by
  intro fuel
  induction fuel with
  | zero =>
    intro parent pkgRaw st out h
    rw [resolveOne_zero] at h
    exact absurd h (by simp)
  | succ n ih =>
    intro parent pkgRaw st out h ev hev
    cases hs : st.seen (strip_version pkgRaw) with
    | true =>
      rw [resolveOne_seen hs] at h
      simp only [Option.some.injEq] at h
      rw [← h] at hev
      simp at hev
    | false =>
      cases hl : env.localSatisfied (strip_version pkgRaw) with
      | true =>
        rw [resolveOne_local rfl hs hl] at h
        simp only [Option.some.injEq] at h
        rw [← h] at hev
        simp at hev
        simp [hev]
      | false =>
        cases ho : env.syncSatisfier (strip_version pkgRaw) with
        | some off =>
          rw [resolveOne_official rfl hs hl ho] at h
          rcases postBranch_some h with ⟨st2, evs, errs, hfo, hout⟩
          rw [hout] at hev
          simp only at hev
          rcases List.mem_append.mp hev with h1 | h1
          · simp at h1
            rcases h1 with h1 | h1 <;> simp [h1]
          · exact fanOut_events _ (fun d s o ho2 => ih (some off.name) d s o ho2)
              off.depends _ (st2, evs, errs) hfo ev h1
        | none =>
          have hne : strip_version pkgRaw ≠ q := by
            intro hx
            rcases hq with hq | hq
            · rw [hx] at hl
              rw [hl] at hq
              exact Bool.noConfusion hq
            · rw [hx] at ho
              exact hq ho
          rcases hpc : pullOrClone env parent (strip_version pkgRaw) with ⟨pevs, pres⟩
          have hpevs : ∀ e2, e2 ∈ pevs →
              e2 ≠ Event.fetchOne q ∧ e2 ≠ Event.searchAll q := by
            intro e2 he2
            have := pullOrClone_events env parent (strip_version pkgRaw) e2
              (by rw [hpc]; exact he2)
            rcases this with h1 | h1 | ⟨b, h1⟩ <;>
              subst h1 <;>
              constructor <;>
              intro hx <;>
              simp at hx <;>
              try exact hne hx
          cases pres with
          | error e =>
            rw [resolveOne_aurPullErr rfl hs hl ho hpc] at h
            simp only [Option.some.injEq] at h
            rw [← h] at hev
            simp only at hev
            rcases List.mem_append.mp hev with h1 | h1
            · simp at h1
              rcases h1 with h1 | h1 <;> simp [h1]
            · exact hpevs ev h1
          | ok path =>
            cases hsi : env.parseSrcinfo path with
            | error e =>
              rw [resolveOne_aurParseErr rfl hs hl ho hpc hsi] at h
              simp only [Option.some.injEq] at h
              rw [← h] at hev
              simp only at hev
              rcases List.mem_append.mp hev with h1 | h1
              · rcases List.mem_append.mp h1 with h2 | h2
                · simp at h2
                  rcases h2 with h2 | h2 <;> simp [h2]
                · exact hpevs ev h2
              · simp at h1
                simp [h1]
            | ok si =>
              rw [resolveOne_aurOk rfl hs hl ho hpc hsi] at h
              rcases postBranch_some h with ⟨st2, evs, errs, hfo, hout⟩
              rw [hout] at hev
              simp only at hev
              rcases List.mem_append.mp hev with h1 | h1
              · rcases List.mem_append.mp h1 with h2 | h2
                · rcases List.mem_append.mp h2 with h3 | h3
                  · simp at h3
                    rcases h3 with h3 | h3 <;> simp [h3]
                  · exact hpevs ev h3
                · simp at h2
                  simp [h2]
              · exact fanOut_events _ (fun d s o ho2 => ih (some si.pkgbase) d s o ho2)
                  (aggDeps si) _ (st2, evs, errs) hfo ev h1

/-- C2: lookup order of `resolve_one` for an unseen name — (i) a locally
satisfied name goes to `satisfied` as the whole effect of the call (no
official insert, no fetch, no build, only a local-database check); (ii) a
name found in the official database lands its canonical name in
`to_install`; (iii) a name that is locally satisfied or officially
packaged never causes a faur fetch or search for that name anywhere in
the traversal, so it is never resolved as buildable. -/
theorem c2_lookup_order :
    (∀ (env : Env) (fuel : Nat) (parent : Option String) (pkgRaw : String)
       (st : Resolution) (p : String), strip_version pkgRaw = p →
       st.seen p = false → env.localSatisfied p = true →
       resolveOne env (fuel + 1) parent pkgRaw st =
         some (⟨st.to_install, st.to_build, sinsert p st.satisfied, st.provided⟩,
           [Event.localCheck p], none)) ∧
    (∀ (env : Env) (fuel : Nat) (parent : Option String) (pkgRaw : String)
       (st : Resolution) (p : String) (off : OfficialRec)
       (out : Resolution × List Event × Option Err), strip_version pkgRaw = p →
       st.seen p = false → env.localSatisfied p = false →
       env.syncSatisfier p = some off →
       resolveOne env (fuel + 1) parent pkgRaw st = some out →
       off.name ∈ out.1.to_install) ∧
    (∀ (env : Env) (q : String),
       env.localSatisfied q = true ∨ env.syncSatisfier q ≠ none →
       ∀ (fuel : Nat) (parent : Option String) (pkgRaw : String) (st : Resolution)
         (out : Resolution × List Event × Option Err),
         resolveOne env fuel parent pkgRaw st = some out →
         Event.fetchOne q ∉ out.2.1 ∧ Event.searchAll q ∉ out.2.1) := by
  refine ⟨?_, ?_, ?_⟩
  · intro env fuel parent pkgRaw st p hp hs hl
    exact resolveOne_local hp hs hl
  · intro env fuel parent pkgRaw st p off out hp hs hl ho h
    rw [resolveOne_official hp hs hl ho] at h
    rcases postBranch_some h with ⟨st2, evs, errs, hfo, hout⟩
    have hsub : (⟨sinsert off.name st.to_install, st.to_build, st.satisfied,
        st.provided⟩ : Resolution).sub st2 :=
      fanOut_mono (fun d s o hh => resolveOne_mono env fuel (some off.name) d s o hh)
        off.depends _ (st2, evs, errs) hfo
    rw [hout]
    exact hsub.1 _ (sinsert_mem_self off.name st.to_install)
  · intro env q hq fuel parent pkgRaw st out h
    constructor
    · intro hmem
      exact (resolveOne_noFetch env q hq fuel parent pkgRaw st out h _ hmem).1 rfl
    · intro hmem
      exact (resolveOne_noFetch env q hq fuel parent pkgRaw st out h _ hmem).2 rfl

/-- C2 witness: `a` is both locally installed and official in
`envLocalAndOfficial`; resolving it puts it in `satisfied` with only a
local check, and no fetch or search for `a` ever occurs. -/
theorem c2_witness :
    (resolveOne envLocalAndOfficial 1 none "a" emptyRes =
      some (⟨emptyRes.to_install, emptyRes.to_build, sinsert "a" emptyRes.satisfied,
        emptyRes.provided⟩, [Event.localCheck "a"], none)) ∧
    (Event.fetchOne "a" ∉ [Event.localCheck "a"] ∧
     Event.searchAll "a" ∉ [Event.localCheck "a"]) :=
  ⟨c2_lookup_order.1 envLocalAndOfficial 0 none "a" emptyRes "a" rfl rfl rfl,
   c2_lookup_order.2.2 envLocalAndOfficial "a" (Or.inl rfl) 1 none "a" emptyRes
     (⟨[], [], ["a"], []⟩, [Event.localCheck "a"], none) rfl⟩

theorem beq_spec {x y : Buildable} (h : Buildable.beq x y = true) :
    x.name = y.name ∧ (∀ d, d ∈ x.deps ↔ d ∈ y.deps) := by
  unfold Buildable.beq eqSet at h
  simp only [Bool.and_eq_true, beq_iff_eq, List.all_eq_true] at h
  obtain ⟨hn, h1, h2⟩ := h
  refine ⟨hn, fun d => ⟨fun hd => ?_, fun hd => ?_⟩⟩
  · exact List.elem_iff.mp (h1 d hd)
  · exact List.elem_iff.mp (h2 d hd)

theorem mem_aggDeps (si : Srcinfo) (d : String) :
    d ∈ aggDeps si ↔ (d ∈ flatVecs si.makedepends ∨ d ∈ flatVecs si.pkg.depends ∨
      ∃ sp, sp ∈ si.pkgs ∧ d ∈ flatVecs sp.depends) := by
  unfold aggDeps aggDepsList flatVecs
  rw [List.mem_dedup]
  simp only [List.mem_flatten, List.mem_map, List.mem_append]
  constructor
  · rintro ⟨l, ⟨av, hav, hl⟩, hd⟩
    subst hl
    rcases hav with (hav | hav) | ⟨l2, ⟨sp, hsp, hl2⟩, hav⟩
    · exact Or.inl ⟨av.vec, ⟨av, hav, rfl⟩, hd⟩
    · exact Or.inr (Or.inl ⟨av.vec, ⟨av, hav, rfl⟩, hd⟩)
    · subst hl2
      exact Or.inr (Or.inr ⟨sp, hsp, av.vec, ⟨av, hav, rfl⟩, hd⟩)
  · rintro (⟨l, ⟨av, hav, hl⟩, hd⟩ | ⟨l, ⟨av, hav, hl⟩, hd⟩ | ⟨sp, hsp, l, ⟨av, hav, hl⟩, hd⟩)
    · subst hl
      exact ⟨av.vec, ⟨av, Or.inl (Or.inl hav), rfl⟩, hd⟩
    · subst hl
      exact ⟨av.vec, ⟨av, Or.inl (Or.inr hav), rfl⟩, hd⟩
    · subst hl
      exact ⟨av.vec, ⟨av, Or.inr ⟨sp.depends, ⟨sp, hsp, rfl⟩, hav⟩, rfl⟩, hd⟩

/-- C3: in the buildable branch, the `Buildable` carries the manifest's
base name and (up to `HashSet` equality) the aggregate dependency set
(base make-dependencies, primary run-dependencies, and every package
section's run-dependencies), and all alias names (primary provides plus
every section name) land in `provided`; both are applied in the one
state update `recordBuildable` before the dependency recursion starts,
and survive into the final state. -/
theorem c3_buildable_single_update :
    ∀ (env : Env) (fuel : Nat) (parent : Option String) (pkgRaw : String)
      (st : Resolution) (p path : String) (pevs : List Event) (si : Srcinfo)
      (out : Resolution × List Event × Option Err),
      strip_version pkgRaw = p → st.seen p = false →
      env.localSatisfied p = false → env.syncSatisfier p = none →
      pullOrClone env parent p = (pevs, Except.ok path) →
      env.parseSrcinfo path = Except.ok si →
      resolveOne env (fuel + 1) parent pkgRaw st = some out →
      (∃ evs2 errs, fanOut (resolveOne env fuel (some si.pkgbase)) (aggDeps si)
          (recordBuildable si st) = some (out.1, evs2, errs)) ∧
      (∃ b, b ∈ (recordBuildable si st).to_build ∧
        Buildable.beq ⟨si.pkgbase, aggDeps si⟩ b = true) ∧
      (∀ q2, q2 ∈ provList si → q2 ∈ (recordBuildable si st).provided) ∧
      (∃ b, b ∈ out.1.to_build ∧ b.name = si.pkgbase ∧
        ∀ d, d ∈ b.deps ↔ (d ∈ flatVecs si.makedepends ∨ d ∈ flatVecs si.pkg.depends ∨
          ∃ sp, sp ∈ si.pkgs ∧ d ∈ flatVecs sp.depends)) ∧
      (∀ q2, q2 ∈ provList si → q2 ∈ out.1.provided) := by
  intro env fuel parent pkgRaw st p path pevs si out hp hs hl ho hpc hsi h
  rw [resolveOne_aurOk hp hs hl ho hpc hsi] at h
  rcases postBranch_some h with ⟨st2, evs, errs, hfo, hout⟩
  have hsub : (recordBuildable si st).sub st2 :=
    fanOut_mono (fun d s o hh => resolveOne_mono env fuel (some si.pkgbase) d s o hh)
      (aggDeps si) _ (st2, evs, errs) hfo
  obtain ⟨b, hb, hbeq⟩ :=
    binsert_beq_exists (⟨si.pkgbase, aggDeps si⟩ : Buildable) st.to_build
  have hbmem : b ∈ (recordBuildable si st).to_build := hb
  refine ⟨⟨evs, errs, by rw [hout]; exact hfo⟩, ⟨b, hbmem, hbeq⟩, ?_, ?_, ?_⟩
  · intro q2 hq2
    exact mem_foldl_sinsert_self hq2
  · obtain ⟨hname, hdeps⟩ := beq_spec hbeq
    refine ⟨b, ?_, hname.symm, fun d => ?_⟩
    · rw [hout]
      exact hsub.2.1 _ hbmem
    · rw [← hdeps d]
      exact mem_aggDeps si d
  · intro q2 hq2
    rw [hout]
    exact hsub.2.2.2 _ (mem_foldl_sinsert_self hq2)

/-- C3 witness: resolving the AUR package `a` of `envAur` (manifest
`siSample`) records base name, aggregate dependencies and all aliases. -/
theorem c3_witness :
    "sub1" ∈ (⟨[], [⟨"base", ["m1", "d1", "d2"]⟩], ["d2", "d1", "m1"],
      ["sub1", "pv1"]⟩ : Resolution).provided :=
  (c3_buildable_single_update envAur 1 none "a" emptyRes "a" "a" [] siSample
    (⟨[], [⟨"base", ["m1", "d1", "d2"]⟩], ["d2", "d1", "m1"], ["sub1", "pv1"]⟩,
     [Event.localCheck "a", Event.syncCheck "a", Event.parseFile "a",
      Event.localCheck "m1", Event.localCheck "d1", Event.localCheck "d2"], none)
    rfl rfl rfl rfl rfl rfl rfl).2.2.2.2 "sub1" (by decide)

theorem beq_iff (x y : Buildable) :
    Buildable.beq x y = true ↔ (x.name = y.name ∧ ∀ d, d ∈ x.deps ↔ d ∈ y.deps) := by
  constructor
  · exact beq_spec
  · rintro ⟨hn, hd⟩
    unfold Buildable.beq eqSet
    simp only [Bool.and_eq_true, beq_iff_eq, List.all_eq_true]
    refine ⟨hn, fun d hdm => ?_, fun d hdm => ?_⟩
    · exact List.elem_iff.mpr ((hd d).mp hdm)
    · exact List.elem_iff.mpr ((hd d).mpr hdm)

/-- C4 counterexample: two `Buildable`s with the same name but different
dependency sets are NOT equal under the derived `PartialEq` (it compares
`deps` too), and a `HashSet<Buildable>` (insert dedups by that equality)
ends up holding two entries with the same name. -/
theorem c4_claim_counterexample :
    (⟨"a", []⟩ : Buildable).name = (⟨"a", ["x"]⟩ : Buildable).name ∧
    Buildable.beq ⟨"a", []⟩ ⟨"a", ["x"]⟩ = false ∧
    binsert ⟨"a", ["x"]⟩ (binsert ⟨"a", []⟩ []) = [⟨"a", ["x"]⟩, ⟨"a", []⟩] :=
  ⟨rfl, rfl, rfl⟩

/-- C4 (amended): hashing of a `Buildable` is determined by `name` alone,
but the derived equality compares `name` AND the dependency set; hence
equal-name/different-deps values hash identically yet are unequal, and a
`HashSet<Buildable>` can hold two entries with the same name. -/
theorem c4_hash_name_eq_all_fields :
    (∀ (h : String → Nat) (b1 b2 : Buildable), b1.name = b2.name →
       Buildable.hashOf h b1 = Buildable.hashOf h b2) ∧
    (∀ b1 b2 : Buildable, Buildable.beq b1 b2 = true ↔
       (b1.name = b2.name ∧ ∀ d, d ∈ b1.deps ↔ d ∈ b2.deps)) ∧
    ((binsert ⟨"a", ["x"]⟩ (binsert ⟨"a", []⟩ [])).length = 2 ∧
      ∀ b, b ∈ binsert ⟨"a", ["x"]⟩ (binsert ⟨"a", []⟩ []) → b.name = "a") := by
  refine ⟨?_, beq_iff, rfl, ?_⟩
  · intro h b1 b2 hn
    unfold Buildable.hashOf
    rw [hn]
  · intro b hb
    rw [show binsert ⟨"a", ["x"]⟩ (binsert ⟨"a", []⟩ []) =
      [⟨"a", ["x"]⟩, ⟨"a", []⟩] from rfl] at hb
    have : b = (⟨"a", ["x"]⟩ : Buildable) ∨ b = (⟨"a", []⟩ : Buildable) := by
      simpa using hb
    rcases this with h1 | h1 <;> rw [h1]

/-- C4 witness: a concrete hash function and a concrete pair of
equal-name `Buildable`s with identical hashes. -/
theorem c4_witness :
    Buildable.hashOf String.length ⟨"a", []⟩ =
      Buildable.hashOf String.length ⟨"a", ["x"]⟩ :=
  c4_hash_name_eq_all_fields.1 String.length ⟨"a", []⟩ ⟨"a", ["x"]⟩ rfl

theorem readyB_spec {all placed : List String} {b : Buildable}
    (h : readyB all placed b = true) :
    ∀ d, d ∈ b.deps → d ∈ all → d ∈ placed := by
  unfold readyB at h
  simp only [List.all_eq_true] at h
  intro d hd ha
  have h2 := h d hd
  simp only [Bool.or_eq_true, Bool.not_eq_true'] at h2
  rcases h2 with h1 | h1
  · have hc : all.contains d = true := List.elem_iff.mpr ha
    rw [h1] at hc
    exact absurd hc (by simp)
  · exact List.elem_iff.mp h1

theorem kahnF_zero_cons (all : List String) (r : Buildable) (rs : List Buildable)
    (placed : List String) :
    kahnF all 0 (r :: rs) placed = Except.error CycleError.cycle := rfl

theorem kahnF_nil (all : List String) (fuel : Nat) (placed : List String) :
    kahnF all fuel [] placed = Except.ok [] := by
  cases fuel <;> rfl

theorem kahnF_sound (all : List String) :
    ∀ (fuel : Nat) (rem : List Buildable) (placed : List String)
      (plan : List (List String)),
      kahnF all fuel rem placed = Except.ok plan →
      ∀ i g, plan.get? i = some g → ∀ n, n ∈ g →
        ∃ b, b ∈ rem ∧ b.name = n ∧
          ∀ d, d ∈ b.deps → d ∈ all →
            (d ∈ placed ∨ ∃ j g', j < i ∧ plan.get? j = some g' ∧ d ∈ g') := by
  intro fuel
  induction fuel with
  | zero =>
    intro rem placed plan h i g hg n hn
    cases rem with
    | nil =>
      rw [kahnF_nil] at h
      simp only [Except.ok.injEq] at h
      subst h
      simp at hg
    | cons r rs =>
      rw [kahnF_zero_cons] at h
      exact absurd h (by simp)
  | succ f ih =>
    intro rem placed plan h i g hg n hn
    cases rem with
    | nil =>
      rw [kahnF_nil] at h
      simp only [Except.ok.injEq] at h
      subst h
      simp at hg
    | cons r rs =>
      simp only [kahnF] at h
      by_cases hrdy : ((r :: rs).filter (readyB all placed)).isEmpty = true
      · rw [if_pos hrdy] at h
        exact absurd h (by simp)
      · rw [if_neg hrdy] at h
        cases hrec : kahnF all f ((r :: rs).filter (fun b => ! readyB all placed b))
            (placed ++ ((r :: rs).filter (readyB all placed)).map (fun b => b.name)) with
        | error e =>
          rw [hrec] at h
          exact absurd h (by simp)
        | ok plan2 =>
          rw [hrec] at h
          simp only [Except.ok.injEq] at h
          subst h
          cases i with
          | zero =>
            simp only [List.get?_cons_zero, Option.some.injEq] at hg
            subst hg
            obtain ⟨b, hbrdy, hbname⟩ := List.mem_map.mp hn
            have hbmem := List.mem_filter.mp hbrdy
            exact ⟨b, hbmem.1, hbname,
              fun d hd ha => Or.inl (readyB_spec hbmem.2 d hd ha)⟩
          | succ i2 =>
            simp only [List.get?_cons_succ] at hg
            obtain ⟨b, hbrest, hbname, hdeps⟩ := ih _ _ plan2 hrec i2 g hg n hn
            refine ⟨b, (List.mem_filter.mp hbrest).1, hbname, fun d hd ha => ?_⟩
            rcases hdeps d hd ha with hpl | ⟨j, g2, hj, hjg, hdg⟩
            · rcases List.mem_append.mp hpl with h1 | h1
              · exact Or.inl h1
              · exact Or.inr ⟨0, _, Nat.succ_pos i2, rfl, h1⟩
            · exact Or.inr ⟨j + 1, g2, Nat.succ_lt_succ hj, by simpa using hjg, hdg⟩

theorem kahnF_complete (all : List String) :
    ∀ (fuel : Nat) (rem : List Buildable) (placed : List String)
      (plan : List (List String)),
      kahnF all fuel rem placed = Except.ok plan →
      ∀ b, b ∈ rem → b.name ∈ plan.flatten := by
  intro fuel
  induction fuel with
  | zero =>
    intro rem placed plan h b hb
    cases rem with
    | nil => simp at hb
    | cons r rs =>
      rw [kahnF_zero_cons] at h
      exact absurd h (by simp)
  | succ f ih =>
    intro rem placed plan h b hb
    cases rem with
    | nil => simp at hb
    | cons r rs =>
      simp only [kahnF] at h
      by_cases hrdy : ((r :: rs).filter (readyB all placed)).isEmpty = true
      · rw [if_pos hrdy] at h
        exact absurd h (by simp)
      · rw [if_neg hrdy] at h
        cases hrec : kahnF all f ((r :: rs).filter (fun b => ! readyB all placed b))
            (placed ++ ((r :: rs).filter (readyB all placed)).map (fun b => b.name)) with
        | error e =>
          rw [hrec] at h
          exact absurd h (by simp)
        | ok plan2 =>
          rw [hrec] at h
          simp only [Except.ok.injEq] at h
          subst h
          cases hready : readyB all placed b with
          | true =>
            have hbf : b ∈ (r :: rs).filter (readyB all placed) :=
              List.mem_filter.mpr ⟨hb, hready⟩
            have : b.name ∈ ((r :: rs).filter (readyB all placed)).map
                (fun b => b.name) :=
              List.mem_map.mpr ⟨b, hbf, rfl⟩
            simp only [List.flatten_cons]
            exact List.mem_append.mpr (Or.inl this)
          | false =>
            have hbf : b ∈ (r :: rs).filter (fun b => ! readyB all placed b) :=
              List.mem_filter.mpr ⟨hb, by simp [hready]⟩
            have := ih _ _ plan2 hrec b hbf
            simp only [List.flatten_cons]
            exact List.mem_append.mpr (Or.inr this)

theorem kahnF_cycle (all : List String) :
    ∀ (fuel : Nat) (rem : List Buildable) (placed : List String) (C : List String),
      (∀ n, n ∈ C → n ∈ all) →
      (∀ n, n ∈ C → n ∉ placed) →
      (∃ b, b ∈ rem ∧ b.name ∈ C) →
      (∀ b, b ∈ rem → b.name ∈ C → ∃ d, d ∈ b.deps ∧ d ∈ C) →
      kahnF all fuel rem placed = Except.error CycleError.cycle := by
  intro fuel
  induction fuel with
  | zero =>
    intro rem placed C hCall hCpl hex hclo
    obtain ⟨b0, hb0, hb0C⟩ := hex
    cases rem with
    | nil => simp at hb0
    | cons r rs => exact kahnF_zero_cons all r rs placed
  | succ f ih =>
    intro rem placed C hCall hCpl hex hclo
    obtain ⟨b0, hb0, hb0C⟩ := hex
    cases rem with
    | nil => simp at hb0
    | cons r rs =>
      have hnotready : ∀ b, b ∈ r :: rs → b.name ∈ C → readyB all placed b = false := by
        intro b hb hbC
        obtain ⟨d, hd, hdC⟩ := hclo b hb hbC
        cases hready : readyB all placed b with
        | false => rfl
        | true =>
          exact absurd (readyB_spec hready d hd (hCall d hdC)) (hCpl d hdC)
      have hrdyC : ∀ n, n ∈ ((r :: rs).filter (readyB all placed)).map
          (fun b => b.name) → n ∉ C := by
        intro n hn hnC
        obtain ⟨b, hbf, hbn⟩ := List.mem_map.mp hn
        have hm := List.mem_filter.mp hbf
        have := hnotready b hm.1 (hbn ▸ hnC)
        rw [this] at hm
        exact absurd hm.2 (by simp)
      simp only [kahnF]
      by_cases hrdy : ((r :: rs).filter (readyB all placed)).isEmpty = true
      · rw [if_pos hrdy]
      · rw [if_neg hrdy]
        have hrec := ih ((r :: rs).filter (fun b => ! readyB all placed b))
          (placed ++ ((r :: rs).filter (readyB all placed)).map (fun b => b.name)) C
          hCall
          (by
            intro n hnC hmem
            rcases List.mem_append.mp hmem with h1 | h1
            · exact hCpl n hnC h1
            · exact hrdyC n h1 hnC)
          (by
            refine ⟨b0, ?_, hb0C⟩
            exact List.mem_filter.mpr ⟨hb0, by simp [hnotready b0 hb0 hb0C]⟩)
          (by
            intro b hb hbC
            exact hclo b (List.mem_filter.mp hb).1 hbC)
        rw [hrec]

/-- C5: a successful `build_order` plan places every dependency of a
package that is itself in the build set in a strictly earlier group,
drops no package, and for every input with a dependency cycle among the
build set (a non-empty name set `C` drawn from the build set in which
every member's package depends on another member) it reports the
distinct cycle error instead of a plan.
(`build_order` is modelled from the spec: the source body is a
`todo!()` stub.) -/
theorem c5_build_order :
    (∀ (bs : List Buildable) (plan : List (List String)),
       build_order bs = Except.ok plan →
       ∀ i g, plan.get? i = some g → ∀ n, n ∈ g → ∃ b, b ∈ bs ∧ b.name = n ∧
         ∀ d, d ∈ b.deps → d ∈ bs.map (fun x => x.name) →
           ∃ j g', j < i ∧ plan.get? j = some g' ∧ d ∈ g') ∧
    (∀ (bs : List Buildable) (plan : List (List String)),
       build_order bs = Except.ok plan → ∀ b, b ∈ bs → b.name ∈ plan.flatten) ∧
    (∀ (bs : List Buildable) (C : List String), C ≠ [] →
       (∀ n, n ∈ C → n ∈ bs.map (fun x => x.name)) →
       (∀ b, b ∈ bs → b.name ∈ C → ∃ d, d ∈ b.deps ∧ d ∈ C) →
       build_order bs = Except.error CycleError.cycle) := by
  refine ⟨?_, ?_, ?_⟩
  · intro bs plan h i g hg n hn
    unfold build_order at h
    obtain ⟨b, hb, hbn, hdeps⟩ :=
      kahnF_sound (bs.map (fun b => b.name)) bs.length bs [] plan h i g hg n hn
    refine ⟨b, hb, hbn, fun d hd ha => ?_⟩
    rcases hdeps d hd ha with h1 | h1
    · simp at h1
    · exact h1
  · intro bs plan h b hb
    unfold build_order at h
    exact kahnF_complete (bs.map (fun b => b.name)) bs.length bs [] plan h b hb
  · intro bs C hC hCnames hclo
    have hex : ∃ b, b ∈ bs ∧ b.name ∈ C := by
      cases C with
      | nil => exact absurd rfl hC
      | cons c cs =>
        have : c ∈ bs.map (fun x => x.name) := hCnames c (List.mem_cons_self c cs)
        obtain ⟨b, hb, hbn⟩ := List.mem_map.mp this
        exact ⟨b, hb, by rw [hbn]; exact List.mem_cons_self c cs⟩
    unfold build_order
    exact kahnF_cycle (bs.map (fun b => b.name)) bs.length bs [] C
      hCnames (by intro n _ hmem; simp at hmem) hex hclo

/-- C5 witness: the two-cycle `{p → q, q → p}` yields the cycle error,
and the chain `{x, y ← x, z ← x,y}` yields a complete plan. -/
theorem c5_witness :
    (build_order [⟨"p", ["q"]⟩, ⟨"q", ["p"]⟩] = Except.error CycleError.cycle) ∧
    (∀ b, b ∈ [(⟨"x", []⟩ : Buildable), ⟨"y", ["x"]⟩, ⟨"z", ["x", "y"]⟩] →
      b.name ∈ [["x"], ["y"], ["z"]].flatten) :=
  ⟨c5_build_order.2.2 [⟨"p", ["q"]⟩, ⟨"q", ["p"]⟩] ["p", "q"] (by simp)
      (by decide) (by decide),
   fun b hb => c5_build_order.2.1 [⟨"x", []⟩, ⟨"y", ["x"]⟩, ⟨"z", ["x", "y"]⟩]
      [["x"], ["y"], ["z"]] rfl b hb⟩

/-- C6: a name already in any accumulator set short-circuits
`resolve_one` with success, no events and an unchanged state; and
resolving the duplicate batch `[a, a]` produces the same final state as
resolving `[a]`. -/
theorem c6_idempotent :
    (∀ (env : Env) (fuel : Nat) (parent : Option String) (pkgRaw : String)
       (st : Resolution), st.seen (strip_version pkgRaw) = true →
       resolveOne env (fuel + 1) parent pkgRaw st = some (st, [], none)) ∧
    (∀ (env : Env) (fuel : Nat) (a : String) (st : Resolution) (evs : List Event),
       resolve env fuel [a] = some (Except.ok st, evs) →
       ∃ evs2, resolve env fuel [a, a] = some (Except.ok st, evs2)) := by
  refine ⟨fun env fuel parent pkgRaw st h => resolveOne_seen h, ?_⟩
  intro env fuel a st evs h
  unfold resolve at h
  cases hfo : fanOut (resolveOne env fuel none) [a] emptyRes with
  | none =>
    rw [hfo] at h
    exact absurd h (by simp)
  | some trip =>
    obtain ⟨stF, evsF, errs⟩ := trip
    rw [hfo] at h
    simp only [Option.some.injEq, Prod.mk.injEq] at h
    obtain ⟨hr, hevs⟩ := h
    have herrs : errs = [] := by
      by_cases he : errs.isEmpty
      · exact List.isEmpty_iff.mp he
      · rw [if_neg he] at hr
        exact absurd hr (by simp)
    have hstF : stF = st := by
      rw [herrs] at hr
      simpa using hr
    rcases fanOut_cons_some hfo with ⟨st1, ev1, oe, st2, ev2, errs2, h1, h2, hout⟩
    rw [fanOut_nil] at h2
    simp only [Option.some.injEq, Prod.mk.injEq] at h2 hout
    obtain ⟨h21, h22, h23⟩ := h2
    obtain ⟨ho1, ho2, ho3⟩ := hout
    have hoe : oe = none := by
      cases oe with
      | none => rfl
      | some e =>
        rw [herrs, ← h23] at ho3
        simp at ho3
    have hst1 : st1 = st := by
      rw [← hstF, ho1, ← h21]
    rw [hoe, hst1] at h1
    obtain ⟨evs2, h2nd⟩ :=
      resolveOne_stable env fuel none a emptyRes st ev1 h1 st (sub_refl st)
    have hfo3 : fanOut (resolveOne env fuel none) [a] st = some (st, evs2 ++ [], []) :=
      fanOut_cons_build h2nd (fanOut_nil (resolveOne env fuel none) st)
    have hfo4 : fanOut (resolveOne env fuel none) [a, a] emptyRes =
        some (st, ev1 ++ (evs2 ++ []), []) := by
      have := fanOut_cons_build h1 hfo3
      simpa using this
    refine ⟨ev1 ++ (evs2 ++ []), ?_⟩
    unfold resolve
    rw [hfo4]
    simp

/-- C6 witness: resolving the duplicate batch `["a", "a"]` in
`envLocalAndOfficial` gives the same final state as `["a"]`. -/
theorem c6_witness :
    ∃ evs2, resolve envLocalAndOfficial 1 ["a", "a"] =
      some (Except.ok ⟨[], [], ["a"], []⟩, evs2) :=
  c6_idempotent.2 envLocalAndOfficial 1 "a" ⟨[], [], ["a"], []⟩
    [Event.localCheck "a"] rfl

theorem find?_first {α : Type} (p : α → Bool) :
    ∀ (l : List α) (i : Nat) (x : α), l.get? i = some x → p x = true →
      (∀ j y, j < i → l.get? j = some y → p y = false) → l.find? p = some x := by
  intro l
  induction l with
  | nil =>
    intro i x h
    simp at h
  | cons a rest ih =>
    intro i x h hpx hprev
    cases i with
    | zero =>
      simp only [List.get?_cons_zero, Option.some.injEq] at h
      subst h
      exact List.find?_cons_of_pos _ hpx
    | succ i2 =>
      have hpa : p a = false := hprev 0 a (Nat.succ_pos i2) rfl
      rw [List.find?_cons_of_neg _ (by simp [hpa])]
      exact ih i2 x (by simpa using h) hpx
        (fun j y hj hy => hprev (j + 1) y (Nat.succ_lt_succ hj) (by simpa using hy))

/-- C7: for a name with no local working tree, `pull_or_clone` (i) uses
the exact-name remote record when one is returned; (ii) otherwise falls
back to a search and takes the first record whose provides contain the
requested name; (iii) fails with the unresolvable-name error when the
search yields no providing record, and (iv) also when the search call
itself fails (its error is swallowed); and (v) the unresolvable-name
error carries the requested name, plus the parent's name when one was
supplied. -/
theorem c7_pull_or_clone :
    (∀ (env : Env) (parent : Option String) (pkg : String)
       (info : List FaurPackage) (p : FaurPackage),
       env.hasClone pkg = false → env.fetchOne pkg = Except.ok info →
       info.getLast? = some p →
       pullOrClone env parent pkg =
         finishClone env [Event.fetchOne pkg] p.package_base) ∧
    (∀ (env : Env) (parent : Option String) (pkg : String)
       (ps : List FaurPackage) (i : Nat) (p : FaurPackage),
       env.hasClone pkg = false → env.fetchOne pkg = Except.ok [] →
       env.searchAll pkg = Except.ok ps →
       ps.get? i = some p → providesMatch pkg p = true →
       (∀ j q, j < i → ps.get? j = some q → providesMatch pkg q = false) →
       pullOrClone env parent pkg =
         finishClone env [Event.fetchOne pkg, Event.searchAll pkg] p.package_base) ∧
    (∀ (env : Env) (parent : Option String) (pkg : String) (ps : List FaurPackage),
       env.hasClone pkg = false → env.fetchOne pkg = Except.ok [] →
       env.searchAll pkg = Except.ok ps →
       (∀ q, q ∈ ps → providesMatch pkg q = false) →
       pullOrClone env parent pkg =
         ([Event.fetchOne pkg, Event.searchAll pkg],
           Except.error (mkDoesntExist parent pkg))) ∧
    (∀ (env : Env) (parent : Option String) (pkg : String) (e : String),
       env.hasClone pkg = false → env.fetchOne pkg = Except.ok [] →
       env.searchAll pkg = Except.error e →
       pullOrClone env parent pkg =
         ([Event.fetchOne pkg, Event.searchAll pkg],
           Except.error (mkDoesntExist parent pkg))) ∧
    (∀ par pkg, mkDoesntExist (some par) pkg = Err.doesntExistWithParent par pkg) ∧
    (∀ pkg, mkDoesntExist none pkg = Err.doesntExist pkg) := by
  refine ⟨?_, ?_, ?_, ?_, fun par pkg => rfl, fun pkg => rfl⟩
  · intro env parent pkg info p hc hf hl
    unfold pullOrClone
    rw [if_neg (by simp [hc])]
    rw [hf]
    simp only [hl]
  · intro env parent pkg ps i p hc hf hs hget hpm hprev
    unfold pullOrClone
    rw [if_neg (by simp [hc])]
    rw [hf]
    simp only [hs, List.getLast?_nil]
    rw [find?_first (providesMatch pkg) ps i p hget hpm hprev]
  · intro env parent pkg ps hc hf hs hnone
    unfold pullOrClone
    rw [if_neg (by simp [hc])]
    rw [hf]
    simp only [hs, List.getLast?_nil]
    rw [List.find?_eq_none.mpr (fun q hq => by simp [hnone q hq])]
  · intro env parent pkg e hc hf hs
    unfold pullOrClone
    rw [if_neg (by simp [hc])]
    rw [hf]
    simp only [hs, List.getLast?_nil]
    rw [show (List.find? (providesMatch pkg) [] : Option FaurPackage) = none from rfl]

/-- C7 witness: the exact path of `envExact` resolves to the record's
package base, and the search fallback of `envSearch` takes the first
providing record (`faurHit`, not `faurLate`). -/
theorem c7_witness :
    (pullOrClone envExact none "a" =
      finishClone envExact [Event.fetchOne "a"] "a-base") ∧
    (pullOrClone envSearch (some "papa") "a" =
      finishClone envSearch [Event.fetchOne "a", Event.searchAll "a"] "hit-base") :=
  ⟨c7_pull_or_clone.1 envExact none "a" [faurExact] faurExact rfl rfl rfl,
   c7_pull_or_clone.2.1 envSearch (some "papa") "a" [faurMiss, faurHit, faurLate] 1
     faurHit rfl rfl rfl rfl rfl
     (by
       intro j q hj hq
       rw [Nat.lt_one_iff.mp hj] at hq
       simp only [List.get?_cons_zero, Option.some.injEq] at hq
       rw [← hq]
       rfl)⟩

theorem stripCore_none {l : List Char} (h : ∀ c, c ∈ l → c ≠ '=' ∧ c ≠ '>') :
    stripCore l = none := by
  induction l with
  | nil => rfl
  | cons c cs ih =>
    have hc := h c (List.mem_cons_self c cs)
    unfold stripCore
    rw [if_neg (by simp [hc.1, hc.2])]
    rw [ih (fun d hd => h d (List.mem_cons_of_mem c hd))]
    rfl

theorem stripCore_append (c : Char) (b : List Char) (hc : c = '=' ∨ c = '>') :
    ∀ a : List Char, (∀ d, d ∈ a → d ≠ '=' ∧ d ≠ '>') →
      stripCore (a ++ c :: b) = some a := by
  intro a
  induction a with
  | nil =>
    intro _
    show stripCore (c :: b) = some []
    unfold stripCore
    rw [if_pos (by rcases hc with h | h <;> simp [h])]
  | cons d ds ih =>
    intro ha
    have hd := ha d (List.mem_cons_self d ds)
    show stripCore (d :: (ds ++ c :: b)) = some (d :: ds)
    unfold stripCore
    rw [if_neg (by simp [hd.1, hd.2])]
    rw [ih (fun x hx => ha x (List.mem_cons_of_mem d hx))]
    rfl

/-- C8: `strip_version` keeps the input unchanged when no `=` / `>`
occurs, and otherwise returns exactly the characters before the first
marker; in particular the two documented examples hold. -/
theorem c8_strip_version :
    (∀ s : String, (∀ c, c ∈ s.data → c ≠ '=' ∧ c ≠ '>') → strip_version s = s) ∧
    (∀ (a b : List Char) (c : Char), c = '=' ∨ c = '>' →
       (∀ d, d ∈ a → d ≠ '=' ∧ d ≠ '>') →
       strip_version (String.mk (a ++ c :: b)) = String.mk a) ∧
    strip_version "gcc6=6.5.0-7" = "gcc6" ∧ strip_version "glibc>=2.25" = "glibc" := by
  refine ⟨?_, ?_, rfl, rfl⟩
  · intro s h
    unfold strip_version
    rw [stripCore_none h]
  · intro a b c hc ha
    unfold strip_version
    show (match stripCore (a ++ c :: b) with
      | some pre => String.mk pre
      | none => String.mk (a ++ c :: b)) = String.mk a
    rw [stripCore_append c b hc a ha]

/-- C8 witness: a marker-free name is unchanged, and a concrete split at
the first `=` keeps the left-hand side. -/
theorem c8_witness :
    strip_version "firefox" = "firefox" ∧
    strip_version (String.mk (['g', 'c', 'c'] ++ '=' :: ['6'])) =
      String.mk ['g', 'c', 'c'] :=
  ⟨c8_strip_version.1 "firefox" (by decide),
   c8_strip_version.2.1 ['g', 'c', 'c'] ['6'] '=' (Or.inl rfl) (by decide)⟩

theorem contains_false_of_not_mem {l : List String} {p : String} (h : p ∉ l) :
    l.contains p = false := by
  cases hc : l.contains p with
  | false => rfl
  | true => exact absurd (List.elem_iff.mp hc) h

theorem seen_false_build {r : Resolution} {p : String}
    (h1 : p ∉ r.provided) (h2 : p ∉ r.satisfied) (h3 : p ∉ r.to_install)
    (h4 : ∀ b, b ∈ r.to_build → b.name ≠ p) : r.seen p = false := by
  unfold Resolution.seen
  rw [contains_false_of_not_mem h1, contains_false_of_not_mem h2,
    contains_false_of_not_mem h3]
  simp only [Bool.false_or]
  exact List.any_eq_false.mpr (fun b hb => by simp [h4 b hb])

/-- C9: when a name is found in the official database (possibly only via
a provides relationship), the state entering the dependency recursion
differs from the input state only in `to_install` (which gains the
canonical name) — satisfied, to_build and provided are untouched by this
name's own update; and when the canonical record has no dependencies and
a different name, the whole call inserts only the canonical name, the
query name is recorded in no set, `seen` of it stays false, and a
repeated call performs the local and sync database lookups again while
leaving the state unchanged. -/
theorem c9_provides_only_official :
    (∀ (env : Env) (fuel : Nat) (parent : Option String) (pkgRaw : String)
       (st : Resolution) (q : String) (off : OfficialRec),
       strip_version pkgRaw = q → st.seen q = false →
       env.localSatisfied q = false → env.syncSatisfier q = some off →
       resolveOne env (fuel + 1) parent pkgRaw st =
         postBranch [Event.localCheck q, Event.syncCheck q]
           (fanOut (resolveOne env fuel (some off.name)) off.depends
             ⟨sinsert off.name st.to_install, st.to_build, st.satisfied,
               st.provided⟩)) ∧
    (∀ (env : Env) (fuel : Nat) (parent : Option String) (pkgRaw : String)
      (st : Resolution) (q : String) (off : OfficialRec),
      strip_version pkgRaw = q → st.seen q = false →
      env.localSatisfied q = false → env.syncSatisfier q = some off →
      off.depends = [] → off.name ≠ q →
      (resolveOne env (fuel + 1) parent pkgRaw st =
        some (⟨sinsert off.name st.to_install, st.to_build, st.satisfied, st.provided⟩,
          [Event.localCheck q, Event.syncCheck q], none)) ∧
      ((⟨sinsert off.name st.to_install, st.to_build, st.satisfied,
          st.provided⟩ : Resolution).seen q = false) ∧
      (resolveOne env (fuel + 1) parent pkgRaw
        ⟨sinsert off.name st.to_install, st.to_build, st.satisfied, st.provided⟩ =
        some (⟨sinsert off.name st.to_install, st.to_build, st.satisfied, st.provided⟩,
          [Event.localCheck q, Event.syncCheck q], none))) := by
  refine ⟨fun env fuel parent pkgRaw st q off hp hs hl ho =>
    resolveOne_official hp hs hl ho, ?_⟩
  intro env fuel parent pkgRaw st q off hp hs hl ho hdeps hne
  obtain ⟨hpr, hsa, hin, hbu⟩ := seen_false_parts hs
  have hseen2 : (⟨sinsert off.name st.to_install, st.to_build, st.satisfied,
      st.provided⟩ : Resolution).seen q = false := by
    apply seen_false_build
    · exact hpr
    · exact hsa
    · intro hm
      rcases mem_of_mem_sinsert hm with h1 | h1
      · exact hne h1.symm
      · exact hin h1
    · exact hbu
  refine ⟨?_, hseen2, ?_⟩
  · rw [resolveOne_official hp hs hl ho, hdeps, fanOut_nil]
    rfl
  · rw [resolveOne_official hp hseen2 hl ho, hdeps, fanOut_nil]
    show postBranch [Event.localCheck q, Event.syncCheck q]
        (some (⟨sinsert off.name (sinsert off.name st.to_install), st.to_build,
          st.satisfied, st.provided⟩, [], [])) =
      some (⟨sinsert off.name st.to_install, st.to_build, st.satisfied, st.provided⟩,
        [Event.localCheck q, Event.syncCheck q], none)
    rw [sinsert_eq_of_mem (sinsert_mem_self off.name st.to_install)]
    rfl

/-- C9 witness: in `envProvidesOfficial`, `a` resolves to canonical name
`canon`; only `to_install` changes, `a` stays unseen, and a second call
repeats the lookups without changing the state. -/
theorem c9_witness :
    (resolveOne envProvidesOfficial 1 none "a" emptyRes =
      some (⟨["canon"], [], [], []⟩,
        [Event.localCheck "a", Event.syncCheck "a"], none)) ∧
    ((⟨["canon"], [], [], []⟩ : Resolution).seen "a" = false) ∧
    (resolveOne envProvidesOfficial 1 none "a" ⟨["canon"], [], [], []⟩ =
      some (⟨["canon"], [], [], []⟩,
        [Event.localCheck "a", Event.syncCheck "a"], none)) :=
  c9_provides_only_official.2 envProvidesOfficial 0 none "a" emptyRes "a"
    ⟨"canon", []⟩ rfl rfl rfl rfl rfl (by decide)

/-- C10: a string starting with `=` or `>` normalises to the empty
string, and no check rejects the empty name — `resolve_one` treats it
like any other name (here it is "locally satisfied" and lands in
`satisfied`). -/
theorem c10_empty_name :
    strip_version "=1.0" = "" ∧
    (∀ (s : String) (c : Char) (rest : List Char),
       s.data = c :: rest → (c = '=' ∨ c = '>') → strip_version s = "") ∧
    resolveOne envEmptyName 1 none "=1.0" emptyRes =
      some (⟨[], [], [""], []⟩, [Event.localCheck ""], none) := by
  refine ⟨rfl, ?_, rfl⟩
  intro s c rest hdata hc
  unfold strip_version
  rw [hdata]
  unfold stripCore
  rw [if_pos (by rcases hc with h | h <;> simp [h])]

/-- C10 witness: a concrete leading-marker string normalises to the
empty string. -/
theorem c10_witness : strip_version "=abc" = "" :=
  c10_empty_name.2.1 "=abc" '=' ['a', 'b', 'c'] rfl (Or.inl rfl)
